import Mathlib

/-!
Shallow embedding of the cpp_ex header-only utility library
(src/libs/core/{common,vector,map,string,safe_unique_ptr,safe_shared_ptr}.hpp)
together with theorems settling the specification claims.

Modelling conventions:
  * `std::string` and `cpp_ex::String` contents are `List Char` (`Str`).
  * `cpp_ex::Vector<T>` contents are `List T`.
  * `cpp_ex::Map<K,V,Compare>` contents are an association list sorted by the
    comparator; the comparator is an explicit `lt : K -> K -> Bool` argument,
    exactly like the `Compare` template parameter (std::less by default).
    Key equivalence is the std::map notion: neither key compares less.
  * `std::unique_ptr` / `std::shared_ptr` payloads are `Option T`.
  * Throwing operations return `Except e T`.
  * `size_t` indices are `Nat`; `static_cast<size_type>(-1)` (std::vector's
    not-found sentinel in `findFirstIndex`) is the value `2 ^ 64 - 1`.
-/

namespace CppEx

/-! ## common.hpp -/

/-- Model of cpp_ex::exceptions::NullPointerAccessException: a failure value
carrying a human-readable message. -/
structure NullPointerAccessException where
  msg : List Char
deriving DecidableEq

/-- Default message of NullPointerAccessException. -/
def defaultNullMessage : List Char := "Null pointer access attempt".toList

/-- Model of std::out_of_range as raised by the underlying standard
containers (std::vector::at, std::string::at). -/
structure OutOfRangeException where
  msg : List Char
deriving DecidableEq

/-! ## safe_unique_ptr.hpp / safe_shared_ptr.hpp -/

/-- Model of cpp_ex::SafeUniquePtr<T>: wraps a std::unique_ptr, rendered as
the optional pointee. -/
structure SafeUniquePtr (T : Type) where
  ptr : Option T
deriving DecidableEq

/-- SafeUniquePtr::isNull. -/
def SafeUniquePtr.isNull {T : Type} (p : SafeUniquePtr T) : Bool :=
  p.ptr.isNone

/-- SafeUniquePtr::operator*: throws NullPointerAccessException when the
wrapped pointer is null, otherwise yields the pointee. -/
def SafeUniquePtr.opStar {T : Type} (p : SafeUniquePtr T) :
    Except NullPointerAccessException T :=
  match p.ptr with
  | none => .error ⟨defaultNullMessage⟩
  | some v => .ok v

/-- SafeUniquePtr::operator->: throws NullPointerAccessException when null,
otherwise returns ptr.get(), i.e. access to the pointee. -/
def SafeUniquePtr.opArrow {T : Type} (p : SafeUniquePtr T) :
    Except NullPointerAccessException T :=
  match p.ptr with
  | none => .error ⟨defaultNullMessage⟩
  | some v => .ok v

/-- Model of cpp_ex::SafeSharedPtr<T>; reference counting is not observable
through the dereference interface, so the state is again the optional
pointee. -/
structure SafeSharedPtr (T : Type) where
  ptr : Option T
deriving DecidableEq

/-- SafeSharedPtr::isNull. -/
def SafeSharedPtr.isNull {T : Type} (p : SafeSharedPtr T) : Bool :=
  p.ptr.isNone

/-- SafeSharedPtr::operator*. -/
def SafeSharedPtr.opStar {T : Type} (p : SafeSharedPtr T) :
    Except NullPointerAccessException T :=
  match p.ptr with
  | none => .error ⟨defaultNullMessage⟩
  | some v => .ok v

/-- SafeSharedPtr::operator->. -/
def SafeSharedPtr.opArrow {T : Type} (p : SafeSharedPtr T) :
    Except NullPointerAccessException T :=
  match p.ptr with
  | none => .error ⟨defaultNullMessage⟩
  | some v => .ok v

/-- Model of the array specialization SafeUniquePtr<T[]>: optionally owns a
block of elements, rendered as the list of elements. -/
structure SafeUniquePtrArray (T : Type) where
  arr : Option (List T)
deriving DecidableEq

/-- SafeUniquePtr<T[]>::isNull. -/
def SafeUniquePtrArray.isNull {T : Type} (p : SafeUniquePtrArray T) : Bool :=
  p.arr.isNone

/-- makeSafeUnique<T[]>(size): clamps a zero size to 1, allocates that many
value-initialized elements (new T[size]() value-initializes every element;
`d` is the value-initialized element value) and wraps the array. -/
def makeSafeUniqueArray {T : Type} (d : T) (size : Nat) : SafeUniquePtrArray T :=
  let sz := if size = 0 then 1 else size
  ⟨some (List.replicate sz d)⟩

/-! ## vector.hpp -/

/-- Vector::countIf: std::count_if over the elements. -/
def Vec.countIf {T : Type} (pred : T → Bool) (v : List T) : Nat :=
  v.foldl (fun n x => if pred x then n + 1 else n) 0

/-- Vector::filter: std::copy_if into a fresh vector, pushing the matching
elements back in traversal order. -/
def Vec.filter {T : Type} (pred : T → Bool) (v : List T) : List T :=
  v.foldl (fun acc x => if pred x then acc ++ [x] else acc) []

/-- Sentinel returned by findFirstIndex / findFirstIndexIf on no match:
static_cast<size_type>(-1) for the 64-bit size_type. -/
def Vec.sizeTypeMax : Nat := 2 ^ 64 - 1

/-- Scan of std::find_if measured from the start: index of the current
element is the accumulator `i`. -/
def Vec.findFirstIndexIfAux {T : Type} (pred : T → Bool) : Nat → List T → Nat
  | _, [] => Vec.sizeTypeMax
  | i, x :: xs => if pred x then i else Vec.findFirstIndexIfAux pred (i + 1) xs

/-- Vector::findFirstIndexIf: distance from begin to the std::find_if
result, or the sizeTypeMax sentinel when the predicate never holds. -/
def Vec.findFirstIndexIf {T : Type} (pred : T → Bool) (v : List T) : Nat :=
  Vec.findFirstIndexIfAux pred 0 v

/-- Vector::findFirstIndex: std::find, i.e. find_if with equality against
the sought value. -/
def Vec.findFirstIndex {T : Type} [DecidableEq T] (value : T) (v : List T) : Nat :=
  Vec.findFirstIndexIfAux (fun x => decide (x = value)) 0 v

/-- Vector::at: std::vector::at, which throws std::out_of_range for an
index past the end. -/
def Vec.at {T : Type} (v : List T) (pos : Nat) : Except OutOfRangeException T :=
  match v.get? pos with
  | some x => .ok x
  | none => .error ⟨"vector::at out of range".toList⟩

/-! ## map.hpp

cpp_ex::Map<Key, Value, Compare> wraps std::map: entries kept strictly
ascending under the comparator, keys unique up to comparator equivalence.
The comparator is the explicit argument `lt`; std::map treats keys `a`, `b`
as equivalent when neither `lt a b` nor `lt b a`. -/

/-- A map value: the ordered list of entries of the underlying std::map. -/
def Mp (K V : Type) : Type := List (K × V)

/-- std::map key equivalence under comparator `lt`. -/
def Mp.keyEquiv {K : Type} (lt : K → K → Bool) (a b : K) : Bool :=
  !lt a b && !lt b a

/-- Map::contains: data.find(key) != data.end(), i.e. some entry's key is
comparator-equivalent to `key`. -/
def Mp.contains {K V : Type} (lt : K → K → Bool) (m : Mp K V) (key : K) : Bool :=
  m.any (fun p => Mp.keyEquiv lt key p.1)

/-- Lookup of the value mapped by a key (the std::map tree search: the entry
whose key is comparator-equivalent to `key`, if any). -/
def Mp.lookup {K V : Type} (lt : K → K → Bool) (m : Mp K V) (key : K) : Option V :=
  (m.find? (fun p => Mp.keyEquiv lt key p.1)).map Prod.snd

/-- Map::getSize / size of the underlying std::map. -/
def Mp.size {K V : Type} (m : Mp K V) : Nat :=
  m.length

/-- The key sequence of the map (Map::getKeys). -/
def Mp.keys {K V : Type} (m : Mp K V) : List K :=
  m.map Prod.fst

/-- std::map::insert: places the entry at its ordered position; if an
equivalent key is already present the map is left unchanged. -/
def Mp.insertPair {K V : Type} (lt : K → K → Bool) (kv : K × V) : Mp K V → Mp K V
  | [] => [kv]
  | p :: rest =>
    if lt kv.1 p.1 then kv :: p :: rest
    else if lt p.1 kv.1 then p :: Mp.insertPair lt kv rest
    else p :: rest

/-- Map::operator[] followed by assignment: places the entry at its ordered
position, overwriting the value if an equivalent key is already present. -/
def Mp.setPair {K V : Type} (lt : K → K → Bool) (key : K) (value : V) : Mp K V → Mp K V
  | [] => [(key, value)]
  | p :: rest =>
    if lt key p.1 then (key, value) :: p :: rest
    else if lt p.1 key then p :: Mp.setPair lt key value rest
    else (key, value) :: rest

/-- Map::merge: copy the receiver, then for each entry of `other` insert it
when its key is not already present (receiver wins on collision). -/
def Mp.merge {K V : Type} (lt : K → K → Bool) (a b : Mp K V) : Mp K V :=
  b.foldl (fun result p =>
    if Mp.contains lt result p.1 then result else Mp.insertPair lt p result) a

/-- Map::difference: entries of the receiver whose key is absent from
`other`. -/
def Mp.difference {K V : Type} (lt : K → K → Bool) (a b : Mp K V) : Mp K V :=
  a.foldl (fun result p =>
    if Mp.contains lt b p.1 then result else Mp.insertPair lt p result) []

/-- Map::intersection: entries of the receiver whose key is present in
`other` (values from the receiver). -/
def Mp.intersection {K V : Type} (lt : K → K → Bool) (a b : Mp K V) : Mp K V :=
  a.foldl (fun result p =>
    if Mp.contains lt b p.1 then Mp.insertPair lt p result else result) []

/-- Loop body of Map::merge with the whole machine state threaded through:
(result, receiver, argument). The body reads the current entry of the
argument and conditionally grows the local result; it never writes the
operands. -/
def Mp.mergeStep {K V : Type} (lt : K → K → Bool)
    (st : Mp K V × Mp K V × Mp K V) (p : K × V) : Mp K V × Mp K V × Mp K V :=
  match st with
  | (result, self, other) =>
    if Mp.contains lt result p.1 then (result, self, other)
    else (Mp.insertPair lt p result, self, other)

/-- Map::merge as a call: result initialized to a copy of the receiver, loop
over the argument's entries, final state of result and of both operands. -/
def Mp.mergeRun {K V : Type} (lt : K → K → Bool) (a b : Mp K V) :
    Mp K V × Mp K V × Mp K V :=
  b.foldl (Mp.mergeStep lt) (a, a, b)

/-- Loop body of Map::difference with the machine state threaded through. -/
def Mp.differenceStep {K V : Type} (lt : K → K → Bool)
    (st : Mp K V × Mp K V × Mp K V) (p : K × V) : Mp K V × Mp K V × Mp K V :=
  match st with
  | (result, self, other) =>
    if Mp.contains lt other p.1 then (result, self, other)
    else (Mp.insertPair lt p result, self, other)

/-- Map::difference as a call: result starts empty, loop over the
receiver's entries. -/
def Mp.differenceRun {K V : Type} (lt : K → K → Bool) (a b : Mp K V) :
    Mp K V × Mp K V × Mp K V :=
  a.foldl (Mp.differenceStep lt) ([], a, b)

/-- Loop body of Map::intersection with the machine state threaded
through. -/
def Mp.intersectionStep {K V : Type} (lt : K → K → Bool)
    (st : Mp K V × Mp K V × Mp K V) (p : K × V) : Mp K V × Mp K V × Mp K V :=
  match st with
  | (result, self, other) =>
    if Mp.contains lt other p.1 then (Mp.insertPair lt p result, self, other)
    else (result, self, other)

/-- Map::intersection as a call: result starts empty, loop over the
receiver's entries. -/
def Mp.intersectionRun {K V : Type} (lt : K → K → Bool) (a b : Mp K V) :
    Mp K V × Mp K V × Mp K V :=
  a.foldl (Mp.intersectionStep lt) ([], a, b)

/-- The std::map requirement on the comparator: a strict total order
(irreflexive, transitive, and with equivalence implying equality). -/
def Mp.StrictOrder {K : Type} (lt : K → K → Bool) : Prop :=
  (∀ a, lt a a = false) ∧
  (∀ a b c, lt a b = true → lt b c = true → lt a c = true) ∧
  (∀ a b, lt a b = false → lt b a = false → a = b)

/-- Well-formedness of a map value: the invariant std::map maintains, keys
strictly ascending under the comparator. -/
def Mp.WF {K V : Type} (lt : K → K → Bool) (m : Mp K V) : Prop :=
  m.Pairwise (fun p q => lt p.1 q.1 = true)

/-! ## string.hpp -/

/-- Contents of a cpp_ex::String / std::string. -/
abbrev Str : Type := List Char

/-- Coerce a Lean string literal to the model type. -/
def str (s : String) : Str := s.toList

/-- std::isspace in the default locale: space, tab, newline, vertical tab,
form feed, carriage return. -/
def isSpaceChar (c : Char) : Bool :=
  c = ' ' || c = '\t' || c = '\n' || c = Char.ofNat 11 || c = Char.ofNat 12 || c = '\r'

/-- String::ltrim: erase leading whitespace. -/
def Str.ltrim (s : Str) : Str :=
  List.dropWhile isSpaceChar s

/-- String::rtrim: erase trailing whitespace. -/
def Str.rtrim (s : Str) : Str :=
  (List.dropWhile isSpaceChar (List.reverse s)).reverse

/-- String::trim: erase leading whitespace, then trailing whitespace. -/
def Str.trim (s : Str) : Str :=
  Str.rtrim (Str.ltrim s)

/-- String::isEmpty. -/
def Str.isEmpty (s : Str) : Bool :=
  List.isEmpty s

/-- std::less<std::string>: lexicographic comparison of the character
sequences (byte order; the inputs here are ASCII). -/
def strLtB : Str → Str → Bool
  | [], [] => false
  | [], _ :: _ => true
  | _ :: _, [] => false
  | a :: as, b :: bs =>
    if a.toNat < b.toNat then true
    else if b.toNat < a.toNat then false
    else strLtB as bs

/-- std::string::find(token): position of the first occurrence of `tok` in
`s`, `none` standing for npos. -/
def Str.findSub (tok : Str) : Str → Option Nat
  | [] => if List.isPrefixOf tok [] then some 0 else none
  | c :: rest =>
    if List.isPrefixOf tok (c :: rest) then some 0
    else (Str.findSub tok rest).map (· + 1)

/-- Loop of String::splitByToken: repeatedly find the token, push the
segment before it (trimmed on request) and continue after the token; the
final segment is pushed unconditionally. The fuel argument bounds the
iteration count; splitByToken supplies enough fuel for every non-empty
token (the C++ loop does not terminate on an empty token). -/
def Str.splitLoop (tok : Str) (applyTrim : Bool) : Nat → Str → List Str
  | 0, s => [if applyTrim then Str.trim s else s]
  | fuel + 1, s =>
    match Str.findSub tok s with
    | none => [if applyTrim then Str.trim s else s]
    | some e =>
      (if applyTrim then Str.trim (s.take e) else s.take e) ::
        Str.splitLoop tok applyTrim fuel (s.drop (e + tok.length))

/-- String::splitByToken(token, applyTrim). -/
def Str.splitByToken (tok : Str) (applyTrim : Bool) (s : Str) : List Str :=
  Str.splitLoop tok applyTrim (s.length + 1) s

/-- Loop body of String::toMap over one segment `pair` of the separator
split: with an empty splitToken the trimmed segment maps to itself when
non-empty; otherwise the segment is cut at the first splitToken occurrence
into trimmed key and value, falling back to the self-mapping when the
splitToken does not occur. -/
def Str.toMapStep (splitToken : Str) (acc : Mp Str Str) (pair : Str) : Mp Str Str :=
  if Str.isEmpty splitToken then
    let segment := Str.trim pair
    if Str.isEmpty segment then acc else Mp.setPair strLtB segment segment acc
  else
    match Str.findSub splitToken pair with
    | some splitPos =>
      Mp.setPair strLtB (Str.trim (pair.take splitPos))
        (Str.trim (pair.drop (splitPos + splitToken.length))) acc
    | none =>
      let segment := Str.trim pair
      if Str.isEmpty segment then acc else Mp.setPair strLtB segment segment acc

/-- String::toMap(splitToken, separatorToken): empty map for an empty
separator, otherwise the separator split (with trimming) folded through
the per-segment step. -/
def Str.toMap (s : Str) (splitToken separatorToken : Str) : Mp Str Str :=
  if Str.isEmpty separatorToken then []
  else (Str.splitByToken separatorToken true s).foldl (Str.toMapStep splitToken) []

/-- The map entry contributed by one toMap segment, if any: the value-level
summary of the branches of toMapStep. -/
def Str.segEntry (splitToken : Str) (pair : Str) : Option (Str × Str) :=
  if Str.isEmpty splitToken then
    if Str.isEmpty (Str.trim pair) then none else some (Str.trim pair, Str.trim pair)
  else
    match Str.findSub splitToken pair with
    | some splitPos =>
      some (Str.trim (pair.take splitPos),
        Str.trim (pair.drop (splitPos + splitToken.length)))
    | none =>
      if Str.isEmpty (Str.trim pair) then none else some (Str.trim pair, Str.trim pair)

/-- String::charAt: yields the character at the index, or the NUL character
when the index is past the end (no exception is raised). -/
def Str.charAt (s : Str) (index : Nat) : Char :=
  if index < s.length then s.getD index (Char.ofNat 0) else Char.ofNat 0

/-- String::setCharAt: writes the character when the index is in range and
silently leaves the string unchanged otherwise. -/
def Str.setCharAt (s : Str) (index : Nat) (c : Char) : Str :=
  if index < s.length then s.set index c else s

/-! ## Theorems -/

/-- C1: dereferencing (operator* or operator->) an empty checked owning
pointer — exclusive SafeUniquePtr or shared SafeSharedPtr — always raises
the NullPointerAccess failure, and dereferencing a non-empty one never
raises it and yields the held value. -/
theorem c1_checked_deref_spec {T : Type} (p : SafeUniquePtr T) (q : SafeSharedPtr T)
    (v w : T) :
    (p.ptr = none →
      p.opStar = .error ⟨defaultNullMessage⟩ ∧ p.opArrow = .error ⟨defaultNullMessage⟩) ∧
    (p.ptr = some v → p.opStar = .ok v ∧ p.opArrow = .ok v) ∧
    (q.ptr = none →
      q.opStar = .error ⟨defaultNullMessage⟩ ∧ q.opArrow = .error ⟨defaultNullMessage⟩) ∧
    (q.ptr = some w → q.opStar = .ok w ∧ q.opArrow = .ok w) := by
  refine ⟨?_, ?_, ?_, ?_⟩ <;> intro h <;>
    simp [SafeUniquePtr.opStar, SafeUniquePtr.opArrow,
      SafeSharedPtr.opStar, SafeSharedPtr.opArrow, h]

/-- Witness for C1 at concrete pointers. -/
theorem c1_checked_deref_spec_witness :
    ((⟨none⟩ : SafeUniquePtr Nat).opStar = .error ⟨defaultNullMessage⟩ ∧
      (⟨none⟩ : SafeUniquePtr Nat).opArrow = .error ⟨defaultNullMessage⟩) ∧
    ((⟨some 5⟩ : SafeUniquePtr Nat).opStar = .ok 5 ∧
      (⟨some 5⟩ : SafeUniquePtr Nat).opArrow = .ok 5) ∧
    ((⟨none⟩ : SafeSharedPtr Nat).opStar = .error ⟨defaultNullMessage⟩ ∧
      (⟨none⟩ : SafeSharedPtr Nat).opArrow = .error ⟨defaultNullMessage⟩) ∧
    ((⟨some 7⟩ : SafeSharedPtr Nat).opStar = .ok 7 ∧
      (⟨some 7⟩ : SafeSharedPtr Nat).opArrow = .ok 7) :=
  ⟨(c1_checked_deref_spec ⟨none⟩ ⟨none⟩ 5 7).1 rfl,
    (c1_checked_deref_spec ⟨some 5⟩ ⟨none⟩ 5 7).2.1 rfl,
    (c1_checked_deref_spec ⟨none⟩ ⟨none⟩ 5 7).2.2.1 rfl,
    (c1_checked_deref_spec ⟨none⟩ ⟨some 7⟩ 5 7).2.2.2 rfl⟩

/-- C9: for every requested size, the array form of makeSafeUnique returns
a non-empty checked pointer managing an array of max(size, 1)
value-initialized elements; a request for zero elements yields a
one-element array, and index 0 is always a valid element. -/
theorem c9_makeSafeUniqueArray_spec {T : Type} (d : T) (size : Nat) :
    (makeSafeUniqueArray d size).arr = some (List.replicate (max size 1) d) ∧
    (makeSafeUniqueArray d size).isNull = false ∧
    0 < (List.replicate (max size 1) d).length ∧
    (makeSafeUniqueArray d 0).arr = some [d] := by
  have hmax : (if size = 0 then 1 else size) = max size 1 := by split <;> omega
  refine ⟨?_, rfl, ?_, rfl⟩
  · simp [makeSafeUniqueArray, hmax]
  · simp

/-- C5: the three documented toMap examples on "name=John;age=30". A map
value is its ascending entry list, so \x7b"name":"John","age":"30"\x7d is
the entry list [("age","30"),("name","John")], and likewise for the
self-mapping variant with an empty splitToken; an empty separatorToken
yields the empty map. -/
theorem c5_toMap_examples :
    Str.toMap (str "name=John;age=30") (str "=") (str ";") =
      [(str "age", str "30"), (str "name", str "John")] ∧
    Str.toMap (str "name=John;age=30") (str "") (str ";") =
      [(str "age=30", str "age=30"), (str "name=John", str "name=John")] ∧
    Str.toMap (str "name=John;age=30") (str "=") (str "") = ([] : Mp Str Str) :=
  ⟨rfl, rfl, rfl⟩

/-- C7 counterexample: indexed character access beyond the text wrapper's
length does not surface any out-of-range failure. On the two-character
text "ab", charAt 5 silently yields the NUL character and setCharAt 5
silently leaves the text unchanged, while the split of " " is recovered
locally rather than propagated; contrast Vector::at, which does raise. -/
theorem c7_counterexample :
    Str.charAt (str "ab") 5 = Char.ofNat 0 ∧
    Str.setCharAt (str "ab") 5 'z' = str "ab" ∧
    Vec.at ([10, 20] : List Nat) 5 = .error ⟨"vector::at out of range".toList⟩ :=
  ⟨rfl, rfl, rfl⟩

/-- C7 amended: out-of-bounds access on the sequence wrapper (Vector::at)
is surfaced as the standard out-of-range failure and in-bounds access
yields the element; but the text wrapper's indexed character access
recovers locally: charAt yields the NUL character and setCharAt leaves the
text unchanged for indices beyond the length. -/
theorem c7_out_of_range_spec {T : Type} (v : List T) (pos : Nat) (s : Str) (i : Nat)
    (c : Char) :
    (v.length ≤ pos → Vec.at v pos = .error ⟨"vector::at out of range".toList⟩) ∧
    (∀ h : pos < v.length, Vec.at v pos = .ok (v.get ⟨pos, h⟩)) ∧
    (s.length ≤ i → Str.charAt s i = Char.ofNat 0 ∧ Str.setCharAt s i c = s) := by
  refine ⟨?_, ?_, ?_⟩
  · intro h
    unfold Vec.at
    rw [List.get?_eq_none.mpr h]
  · intro h
    unfold Vec.at
    rw [List.get?_eq_get h]
  · intro h
    constructor
    · unfold Str.charAt
      rw [if_neg (by omega)]
    · unfold Str.setCharAt
      rw [if_neg (by omega)]

/-- Witness for C7 at concrete inputs. -/
theorem c7_out_of_range_spec_witness :
    Vec.at ([10, 20] : List Nat) 5 = .error ⟨"vector::at out of range".toList⟩ ∧
    Vec.at ([10, 20] : List Nat) 1 = .ok 20 ∧
    (Str.charAt (str "ab") 5 = Char.ofNat 0 ∧ Str.setCharAt (str "ab") 5 'z' = str "ab") :=
  ⟨(c7_out_of_range_spec ([10, 20] : List Nat) 5 (str "ab") 5 'z').1 (by decide),
    (c7_out_of_range_spec ([10, 20] : List Nat) 1 (str "ab") 5 'z').2.1 (by decide),
    (c7_out_of_range_spec ([10, 20] : List Nat) 5 (str "ab") 5 'z').2.2 (by decide)⟩

/-- A fold whose step only rewrites the first state component leaves the
rest of the state unchanged and computes the corresponding fold on the
first component. -/
theorem foldl_first_component {A B C : Type} (f : A × B → C → A × B) (g : A → C → A)
    (b0 : B) (hg : ∀ (x : A) (p : C), (f (x, b0) p).1 = g x p)
    (hf : ∀ (x : A) (p : C), (f (x, b0) p).2 = b0) :
    ∀ (l : List C) (x : A), l.foldl f (x, b0) = (l.foldl g x, b0) := by
  intro l
  induction l with
  | nil => intro x; simp
  | cons c rest ih =>
    intro x
    simp only [List.foldl_cons]
    have hstep : f (x, b0) c = (g x c, b0) :=
      Prod.ext_iff.mpr ⟨hg x c, hf x c⟩
    rw [hstep, ih]

/-- C8: merge, difference and intersection each return a new map and leave
both operands unmodified: running the loop of each operation with the whole
machine state threaded through produces the derived map as its result while
the final states of the receiver and of the argument are exactly their
initial states. -/
theorem c8_set_ops_frame {K V : Type} (lt : K → K → Bool) (a b : Mp K V) :
    Mp.mergeRun lt a b = (Mp.merge lt a b, a, b) ∧
    Mp.differenceRun lt a b = (Mp.difference lt a b, a, b) ∧
    Mp.intersectionRun lt a b = (Mp.intersection lt a b, a, b) := by
  refine ⟨?_, ?_, ?_⟩
  · exact foldl_first_component (Mp.mergeStep lt)
      (fun result p =>
        if Mp.contains lt result p.1 then result else Mp.insertPair lt p result)
      (a, b)
      (fun x p => by simp only [Mp.mergeStep]; split <;> rfl)
      (fun x p => by simp only [Mp.mergeStep]; split <;> rfl)
      b a
  · exact foldl_first_component (Mp.differenceStep lt)
      (fun result p =>
        if Mp.contains lt b p.1 then result else Mp.insertPair lt p result)
      (a, b)
      (fun x p => by simp only [Mp.differenceStep]; split <;> rfl)
      (fun x p => by simp only [Mp.differenceStep]; split <;> rfl)
      a []
  · exact foldl_first_component (Mp.intersectionStep lt)
      (fun result p =>
        if Mp.contains lt b p.1 then Mp.insertPair lt p result else result)
      (a, b)
      (fun x p => by simp only [Mp.intersectionStep]; split <;> rfl)
      (fun x p => by simp only [Mp.intersectionStep]; split <;> rfl)
      a []

/-- The copy_if loop of Vector::filter computes List.filter. -/
theorem vecFilter_foldl_eq {T : Type} (pred : T → Bool) :
    ∀ (v acc : List T),
      v.foldl (fun acc x => if pred x then acc ++ [x] else acc) acc = acc ++ v.filter pred := by
  intro v
  induction v with
  | nil => intro acc; simp
  | cons x xs ih =>
    intro acc
    by_cases h : pred x <;> simp [List.filter_cons, h, ih]

/-- Vector::filter agrees with List.filter. -/
theorem vecFilter_eq {T : Type} (pred : T → Bool) (v : List T) :
    Vec.filter pred v = v.filter pred := by
  unfold Vec.filter
  rw [vecFilter_foldl_eq]
  simp

/-- The count_if loop of Vector::countIf computes List.countP. -/
theorem vecCountIf_foldl_eq {T : Type} (pred : T → Bool) :
    ∀ (v : List T) (n : Nat),
      v.foldl (fun n x => if pred x then n + 1 else n) n = n + v.countP pred := by
  intro v
  induction v with
  | nil => intro n; simp
  | cons x xs ih =>
    intro n
    by_cases h : pred x
    · simp [List.countP_cons, h, ih]
      omega
    · simp [List.countP_cons, h, ih]

/-- Vector::countIf agrees with List.countP. -/
theorem vecCountIf_eq {T : Type} (pred : T → Bool) (v : List T) :
    Vec.countIf pred v = v.countP pred := by
  unfold Vec.countIf
  rw [vecCountIf_foldl_eq]
  simp

/-- C3: every element of Vector::filter's result satisfies the predicate,
the retained elements keep their relative order (the result is a sublist
of the input), and the result's size equals Vector::countIf. -/
theorem c3_filter_spec {T : Type} (pred : T → Bool) (v : List T) :
    (∀ x ∈ Vec.filter pred v, pred x = true) ∧
    List.Sublist (Vec.filter pred v) v ∧
    (Vec.filter pred v).length = Vec.countIf pred v := by
  refine ⟨?_, ?_, ?_⟩
  · intro x hx
    rw [vecFilter_eq] at hx
    exact (List.mem_filter.mp hx).2
  · rw [vecFilter_eq]
    exact List.filter_sublist v
  · rw [vecFilter_eq, vecCountIf_eq, List.countP_eq_length_filter]

/-- Witness for C3 on a concrete sequence and predicate. -/
theorem c3_filter_spec_witness :
    (fun n => decide (n % 2 = 0)) 2 = true ∧
    List.Sublist (Vec.filter (fun n => decide (n % 2 = 0)) [1, 2, 3, 4]) [1, 2, 3, 4] ∧
    (Vec.filter (fun n => decide (n % 2 = 0)) [1, 2, 3, 4]).length =
      Vec.countIf (fun n => decide (n % 2 = 0)) [1, 2, 3, 4] :=
  ⟨(c3_filter_spec (fun n => decide (n % 2 = 0)) [1, 2, 3, 4]).1 2 (by decide),
    (c3_filter_spec (fun n => decide (n % 2 = 0)) [1, 2, 3, 4]).2.1,
    (c3_filter_spec (fun n => decide (n % 2 = 0)) [1, 2, 3, 4]).2.2⟩

/-- The find_if scan measured from index i: no match anywhere yields the
sentinel. -/
theorem findFirstIndexIfAux_of_none {T : Type} (pred : T → Bool) :
    ∀ (v : List T) (i : Nat), (∀ x ∈ v, pred x = false) →
      Vec.findFirstIndexIfAux pred i v = Vec.sizeTypeMax := by
  intro v
  induction v with
  | nil => intro i _; rfl
  | cons x xs ih =>
    intro i h
    have hx : pred x = false := h x (by simp)
    simp only [Vec.findFirstIndexIfAux, hx, Bool.false_eq_true, if_false]
    exact ih (i + 1) (fun y hy => h y (by simp [hy]))

/-- The find_if scan measured from index i: a match yields i plus the
first matching offset. -/
theorem findFirstIndexIfAux_of_exists {T : Type} (pred : T → Bool) :
    ∀ (v : List T) (i : Nat), (∃ x ∈ v, pred x = true) →
      Vec.findFirstIndexIfAux pred i v = i + v.findIdx pred := by
  intro v
  induction v with
  | nil => intro i h; simp at h
  | cons x xs ih =>
    intro i h
    by_cases hx : pred x
    · simp [Vec.findFirstIndexIfAux, hx, List.findIdx_cons]
    · have hxs : ∃ y ∈ xs, pred y = true := by
        rcases h with ⟨y, hy, hpy⟩
        rcases List.mem_cons.mp hy with rfl | hmem
        · exact absurd hpy (by simp [hx])
        · exact ⟨y, hmem, hpy⟩
      have hx' : pred x = false := by
        rw [Bool.eq_false_iff]
        exact hx
      simp only [Vec.findFirstIndexIfAux, hx', Bool.false_eq_true, if_false,
        List.findIdx_cons, Bool.cond_eq_if]
      rw [ih (i + 1) hxs]
      omega

/-- Specification of findFirstIndexIf when a match exists: the result is
the index of the first matching element. -/
theorem findFirstIndexIf_found {T : Type} (pred : T → Bool) (v : List T)
    (h : ∃ x ∈ v, pred x = true) :
    Vec.findFirstIndexIf pred v < v.length ∧
    (∃ y, v[Vec.findFirstIndexIf pred v]? = some y ∧ pred y = true) ∧
    (∀ j z, j < Vec.findFirstIndexIf pred v → v[j]? = some z → pred z = false) := by
  have heq : Vec.findFirstIndexIf pred v = v.findIdx pred := by
    unfold Vec.findFirstIndexIf
    rw [findFirstIndexIfAux_of_exists pred v 0 h]
    omega
  rw [heq]
  have hlt : v.findIdx pred < v.length := List.findIdx_lt_length_of_exists h
  refine ⟨hlt, ?_, ?_⟩
  · exact ⟨v[v.findIdx pred], List.getElem?_eq_getElem hlt, List.findIdx_getElem⟩
  · intro j z hj hz
    have hjlen : j < v.length := Nat.lt_of_lt_of_le hj (List.findIdx_le_length pred)
    rw [List.getElem?_eq_getElem hjlen] at hz
    have hz' : z = v[j] := (Option.some.inj hz).symm
    rw [hz']
    exact List.not_of_lt_findIdx hj

/-- Specification of findFirstIndexIf when no match exists: the sentinel
is returned. -/
theorem findFirstIndexIf_not_found {T : Type} (pred : T → Bool) (v : List T)
    (h : ∀ x ∈ v, pred x = false) :
    Vec.findFirstIndexIf pred v = Vec.sizeTypeMax :=
  findFirstIndexIfAux_of_none pred v 0 h

/-- C4: findFirstIndex and findFirstIndexIf return the index of the first
matching element when a match exists, and return the not-found sentinel —
the maximum representable value of the 64-bit index type, 2 ^ 64 - 1 —
when no element matches. -/
theorem c4_findFirstIndex_spec {T : Type} [DecidableEq T] (v : List T) (pred : T → Bool)
    (value : T) :
    ((∃ x ∈ v, pred x = true) →
      Vec.findFirstIndexIf pred v < v.length ∧
      (∃ y, v[Vec.findFirstIndexIf pred v]? = some y ∧ pred y = true) ∧
      (∀ j z, j < Vec.findFirstIndexIf pred v → v[j]? = some z → pred z = false)) ∧
    ((∀ x ∈ v, pred x = false) → Vec.findFirstIndexIf pred v = 2 ^ 64 - 1) ∧
    (value ∈ v →
      Vec.findFirstIndex value v < v.length ∧
      v[Vec.findFirstIndex value v]? = some value ∧
      (∀ j z, j < Vec.findFirstIndex value v → v[j]? = some z → z ≠ value)) ∧
    (value ∉ v → Vec.findFirstIndex value v = 2 ^ 64 - 1) := by
  refine ⟨?_, ?_, ?_, ?_⟩
  · exact findFirstIndexIf_found pred v
  · exact findFirstIndexIf_not_found pred v
  · intro hv
    have h : ∃ x ∈ v, (fun x => decide (x = value)) x = true := ⟨value, hv, by simp⟩
    obtain ⟨hlt, ⟨y, hy, hpy⟩, hmin⟩ :=
      findFirstIndexIf_found (fun x => decide (x = value)) v h
    have hyv : y = value := by simpa using hpy
    subst hyv
    refine ⟨hlt, hy, ?_⟩
    intro j z hj hz hzv
    have := hmin j z hj hz
    simp [hzv] at this
  · intro hv
    exact findFirstIndexIf_not_found (fun x => decide (x = value)) v
      (fun x hx => by
        simp only [decide_eq_false_iff_not]
        intro hxv
        exact hv (hxv ▸ hx))

/-- Witness for C4 on concrete sequences. -/
theorem c4_findFirstIndex_spec_witness :
    Vec.findFirstIndexIf (fun x => decide (4 < x)) [3, 5, 7] < [3, 5, 7].length ∧
    Vec.findFirstIndex (9 : Nat) [3, 5, 7] = 2 ^ 64 - 1 ∧
    Vec.findFirstIndex (5 : Nat) [3, 5, 7] < [3, 5, 7].length :=
  ⟨((c4_findFirstIndex_spec [3, 5, 7] (fun x => decide (4 < x)) 9).1
      ⟨5, by decide, by decide⟩).1,
    (c4_findFirstIndex_spec [3, 5, 7] (fun x => decide (4 < x)) 9).2.2.2 (by decide),
    ((c4_findFirstIndex_spec [3, 5, 7] (fun x => decide (4 < x)) 5).2.2.1 (by decide)).1⟩

/-- Under a lawful comparator, std::map key equivalence is equality. -/
theorem Mp.keyEquiv_true_iff {K : Type} {lt : K → K → Bool} (hso : Mp.StrictOrder lt)
    (a b : K) : Mp.keyEquiv lt a b = true ↔ a = b := by
  obtain ⟨hirr, _, hanti⟩ := hso
  unfold Mp.keyEquiv
  constructor
  · intro h
    rw [Bool.and_eq_true, Bool.not_eq_true', Bool.not_eq_true'] at h
    exact hanti a b h.1 h.2
  · rintro rfl
    simp [hirr a]

/-- Map::contains detects exactly the keys of the map. -/
theorem Mp.contains_iff {K V : Type} {lt : K → K → Bool} (hso : Mp.StrictOrder lt)
    (m : Mp K V) (k : K) : Mp.contains lt m k = true ↔ k ∈ Mp.keys m := by
  unfold Mp.contains Mp.keys
  rw [List.any_eq_true]
  constructor
  · rintro ⟨p, hp, hkeq⟩
    rw [Mp.keyEquiv_true_iff hso] at hkeq
    rw [hkeq]
    exact List.mem_map_of_mem Prod.fst hp
  · intro hk
    rcases List.mem_map.mp hk with ⟨p, hp, hfst⟩
    exact ⟨p, hp, (Mp.keyEquiv_true_iff hso _ _).mpr hfst.symm⟩

/-- Decomposition of Map::contains over the head entry. -/
theorem Mp.contains_cons_false {K V : Type} {lt : K → K → Bool} {p : K × V}
    {rest : Mp K V} {k : K} (h : Mp.contains lt (p :: rest) k = false) :
    Mp.keyEquiv lt k p.1 = false ∧ Mp.contains lt rest k = false := by
  unfold Mp.contains at h ⊢
  rw [List.any_cons, Bool.or_eq_false_iff] at h
  exact h

/-- Inserting an absent key adds exactly that key to the key multiset. -/
theorem Mp.insertPair_keys_perm {K V : Type} {lt : K → K → Bool}
    (_hso : Mp.StrictOrder lt) (kv : K × V) :
    ∀ (m : Mp K V), Mp.contains lt m kv.1 = false →
      List.Perm (Mp.keys (Mp.insertPair lt kv m)) (kv.1 :: Mp.keys m) := by
  intro m
  induction m with
  | nil => intro _; simp [Mp.insertPair, Mp.keys]
  | cons p rest ih =>
    intro h
    have hcons := Mp.contains_cons_false h
    unfold Mp.insertPair
    by_cases h1 : lt kv.1 p.1 = true
    · rw [if_pos h1]
      exact List.Perm.refl _
    · by_cases h2 : lt p.1 kv.1 = true
      · rw [if_neg h1, if_pos h2]
        have hrec := ih hcons.2
        have hcast : Mp.keys (p :: Mp.insertPair lt kv rest) =
            p.1 :: Mp.keys (Mp.insertPair lt kv rest) := rfl
        rw [hcast]
        exact (List.Perm.cons p.1 hrec).trans (List.Perm.swap kv.1 p.1 _)
      · exfalso
        have e1 : lt kv.1 p.1 = false := Bool.eq_false_iff.mpr h1
        have e2 : lt p.1 kv.1 = false := Bool.eq_false_iff.mpr h2
        have : Mp.keyEquiv lt kv.1 p.1 = true := by
          simp [Mp.keyEquiv, e1, e2]
        rw [hcons.1] at this
        exact Bool.false_ne_true this

/-- Inserting an absent key grows the map by one entry. -/
theorem Mp.insertPair_length {K V : Type} {lt : K → K → Bool}
    (hso : Mp.StrictOrder lt) (kv : K × V) (m : Mp K V)
    (h : Mp.contains lt m kv.1 = false) :
    (Mp.insertPair lt kv m).length = m.length + 1 := by
  have hp := (Mp.insertPair_keys_perm hso kv m h).length_eq
  simpa [Mp.keys] using hp

/-- std::map::insert preserves the ordered-keys invariant. -/
theorem Mp.insertPair_WF {K V : Type} {lt : K → K → Bool} (hso : Mp.StrictOrder lt)
    (kv : K × V) : ∀ (m : Mp K V), Mp.WF lt m → Mp.contains lt m kv.1 = false →
      Mp.WF lt (Mp.insertPair lt kv m) := by
  intro m
  induction m with
  | nil => intro _ _; simp [Mp.insertPair, Mp.WF]
  | cons p rest ih =>
    intro hwf h
    have hcons := Mp.contains_cons_false h
    unfold Mp.insertPair
    by_cases h1 : lt kv.1 p.1 = true
    · rw [if_pos h1]
      unfold Mp.WF at *
      rw [List.pairwise_cons]
      refine ⟨?_, hwf⟩
      intro q hq
      rcases List.mem_cons.mp hq with rfl | hq'
      · exact h1
      · exact hso.2.1 _ _ _ h1 ((List.pairwise_cons.mp hwf).1 q hq')
    · by_cases h2 : lt p.1 kv.1 = true
      · rw [if_neg h1, if_pos h2]
        unfold Mp.WF at *
        rw [List.pairwise_cons]
        constructor
        · intro q hq
          have hqk : q.1 ∈ Mp.keys (Mp.insertPair lt kv rest) :=
            List.mem_map_of_mem Prod.fst hq
          rw [(Mp.insertPair_keys_perm hso kv rest hcons.2).mem_iff] at hqk
          rcases List.mem_cons.mp hqk with he | hm
          · rw [he]
            exact h2
          · rcases List.mem_map.mp hm with ⟨r, hr, hrf⟩
            rw [← hrf]
            exact (List.pairwise_cons.mp hwf).1 r hr
        · exact ih (List.pairwise_cons.mp hwf).2 hcons.2
      · rw [if_neg h1, if_neg h2]
        exact hwf

/-- std::map::insert of a different key does not disturb a lookup. -/
theorem Mp.lookup_insertPair_ne {K V : Type} {lt : K → K → Bool}
    (hso : Mp.StrictOrder lt) (kv : K × V) (k : K) (hne : kv.1 ≠ k) :
    ∀ (m : Mp K V), Mp.lookup lt (Mp.insertPair lt kv m) k = Mp.lookup lt m k := by
  have hk : Mp.keyEquiv lt k kv.1 = false := by
    rw [Bool.eq_false_iff]
    intro hky
    exact hne ((Mp.keyEquiv_true_iff hso k kv.1).mp hky).symm
  intro m
  induction m with
  | nil =>
    unfold Mp.insertPair Mp.lookup
    simp [List.find?_cons, hk]
  | cons p rest ih =>
    unfold Mp.insertPair
    by_cases h1 : lt kv.1 p.1 = true
    · rw [if_pos h1]
      unfold Mp.lookup
      rw [List.find?_cons_of_neg _ (by simp [hk])]
    · by_cases h2 : lt p.1 kv.1 = true
      · rw [if_neg h1, if_pos h2]
        unfold Mp.lookup at ih ⊢
        by_cases hp : Mp.keyEquiv lt k p.1 = true
        · rw [List.find?_cons_of_pos _ (by simp [hp]), List.find?_cons_of_pos _ (by simp [hp])]
        · rw [List.find?_cons_of_neg _ (by simp [hp]), List.find?_cons_of_neg _ (by simp [hp])]
          exact ih
      · rw [if_neg h1, if_neg h2]

/-- Keys of a well-formed map are distinct. -/
theorem Mp.keys_nodup_of_WF {K V : Type} {lt : K → K → Bool} (hso : Mp.StrictOrder lt)
    {m : Mp K V} (h : Mp.WF lt m) : (Mp.keys m).Nodup := by
  unfold Mp.keys
  unfold Mp.WF at h
  have hp : List.Pairwise (fun a b : K => lt a b = true) (m.map Prod.fst) :=
    List.Pairwise.map Prod.fst (fun a b hab => hab) h
  refine hp.imp ?_
  intro a b hab he
  rw [he, hso.1 b] at hab
  exact Bool.false_ne_true hab

/-- Keys reached by the merge loop: the start map's keys together with the
looped entries' keys. -/
theorem Mp.merge_loop_mem_keys {K V : Type} {lt : K → K → Bool}
    (hso : Mp.StrictOrder lt) (k : K) :
    ∀ (b : List (K × V)) (r : Mp K V),
      (k ∈ Mp.keys (b.foldl (fun result p =>
          if Mp.contains lt result p.1 then result else Mp.insertPair lt p result) r)) ↔
        (k ∈ Mp.keys r ∨ k ∈ Mp.keys b) := by
  intro b
  induction b with
  | nil => intro r; simp [Mp.keys]
  | cons p rest ih =>
    intro r
    simp only [List.foldl_cons]
    rw [show Mp.keys (p :: rest) = p.1 :: Mp.keys rest from rfl, List.mem_cons]
    by_cases hc : Mp.contains lt r p.1 = true
    · rw [if_pos hc, ih r]
      have hpk : p.1 ∈ Mp.keys r := (Mp.contains_iff hso r p.1).mp hc
      constructor
      · rintro (h | h)
        · exact Or.inl h
        · exact Or.inr (Or.inr h)
      · rintro (h | hk | h)
        · exact Or.inl h
        · rw [hk]
          exact Or.inl hpk
        · exact Or.inr h
    · rw [if_neg hc]
      have hc' : Mp.contains lt r p.1 = false := Bool.eq_false_iff.mpr hc
      rw [ih (Mp.insertPair lt p r)]
      have hmem : k ∈ Mp.keys (Mp.insertPair lt p r) ↔ k = p.1 ∨ k ∈ Mp.keys r := by
        rw [(Mp.insertPair_keys_perm hso p r hc').mem_iff, List.mem_cons]
      rw [hmem]
      tauto

/-- Size reached by the merge loop: the start map's size plus the number of
looped entries whose key is absent from the start map. -/
theorem Mp.merge_loop_size {K V : Type} {lt : K → K → Bool}
    (hso : Mp.StrictOrder lt) :
    ∀ (b : List (K × V)) (r : Mp K V), Mp.WF lt r →
      List.Pairwise (fun p q => lt p.1 q.1 = true) b →
      (b.foldl (fun result p =>
          if Mp.contains lt result p.1 then result else Mp.insertPair lt p result) r).length =
        r.length + b.countP (fun p => !(Mp.contains lt r p.1)) := by
  intro b
  induction b with
  | nil => intro r _ _; simp
  | cons p rest ih =>
    intro r hwf hb
    simp only [List.foldl_cons]
    rcases List.pairwise_cons.mp hb with ⟨hpb, hrest⟩
    rw [List.countP_cons]
    by_cases hc : Mp.contains lt r p.1 = true
    · rw [if_pos hc, ih r hwf hrest]
      simp [hc]
    · rw [if_neg hc]
      have hc' : Mp.contains lt r p.1 = false := Bool.eq_false_iff.mpr hc
      rw [ih _ (Mp.insertPair_WF hso p r hwf hc') hrest]
      rw [Mp.insertPair_length hso p r hc']
      have hcong : rest.countP (fun q => !(Mp.contains lt (Mp.insertPair lt p r) q.1)) =
          rest.countP (fun q => !(Mp.contains lt r q.1)) := by
        apply List.countP_congr
        intro q hq
        have hlt : lt p.1 q.1 = true := hpb q hq
        have hne : p.1 ≠ q.1 := by
          intro he
          rw [he, hso.1 q.1] at hlt
          exact Bool.false_ne_true hlt
        have hcq : Mp.contains lt (Mp.insertPair lt p r) q.1 = Mp.contains lt r q.1 := by
          rw [Bool.eq_iff_iff, Mp.contains_iff hso, Mp.contains_iff hso,
            (Mp.insertPair_keys_perm hso p r hc').mem_iff, List.mem_cons]
          constructor
          · rintro (he | h)
            · exact absurd he.symm hne
            · exact h
          · exact Or.inr
        rw [hcq]
      rw [hcong]
      simp [hc']
      omega

/-- Lookups of keys already present in the start map are unchanged by the
merge loop. -/
theorem Mp.merge_loop_lookup {K V : Type} {lt : K → K → Bool}
    (hso : Mp.StrictOrder lt) (k : K) :
    ∀ (b : List (K × V)) (r : Mp K V), Mp.contains lt r k = true →
      Mp.lookup lt (b.foldl (fun result p =>
          if Mp.contains lt result p.1 then result else Mp.insertPair lt p result) r) k =
        Mp.lookup lt r k := by
  intro b
  induction b with
  | nil => intro r _; rfl
  | cons p rest ih =>
    intro r hc
    simp only [List.foldl_cons]
    by_cases hcp : Mp.contains lt r p.1 = true
    · rw [if_pos hcp]
      exact ih r hc
    · rw [if_neg hcp]
      have hcp' : Mp.contains lt r p.1 = false := Bool.eq_false_iff.mpr hcp
      have hne : p.1 ≠ k := by
        intro he
        rw [he, hc] at hcp'
        simp at hcp'
      have hck : Mp.contains lt (Mp.insertPair lt p r) k = true := by
        rw [Mp.contains_iff hso] at hc ⊢
        rw [(Mp.insertPair_keys_perm hso p r hcp').mem_iff, List.mem_cons]
        exact Or.inr hc
      rw [ih _ hck]
      exact Mp.lookup_insertPair_ne hso p k hne r

/-- C2: a.merge(b) has exactly the keys in the union of a's and b's key
sets, its size is the cardinality of that union, and for every key present
in both maps the merged value is a's value (the receiver wins on
collision). -/
theorem c2_merge_spec {K V : Type} [DecidableEq K] (lt : K → K → Bool) (a b : Mp K V)
    (hso : Mp.StrictOrder lt) (hwa : Mp.WF lt a) (hwb : Mp.WF lt b) :
    (∀ k, k ∈ Mp.keys (Mp.merge lt a b) ↔ (k ∈ Mp.keys a ∨ k ∈ Mp.keys b)) ∧
    Mp.size (Mp.merge lt a b) = ((Mp.keys a).toFinset ∪ (Mp.keys b).toFinset).card ∧
    (∀ k, Mp.contains lt a k = true → Mp.contains lt b k = true →
      Mp.lookup lt (Mp.merge lt a b) k = Mp.lookup lt a k) := by
  refine ⟨?_, ?_, ?_⟩
  · intro k
    exact Mp.merge_loop_mem_keys hso k b a
  · have hsize := Mp.merge_loop_size hso b a hwa hwb
    have hnda : (Mp.keys a).Nodup := Mp.keys_nodup_of_WF hso hwa
    have hndb : (Mp.keys b).Nodup := Mp.keys_nodup_of_WF hso hwb
    have hcount : b.countP (fun p => !(Mp.contains lt a p.1)) =
        ((Mp.keys b).filter (fun k => !(decide (k ∈ Mp.keys a)))).length := by
      rw [← List.countP_eq_length_filter]
      unfold Mp.keys
      rw [List.countP_map]
      apply List.countP_congr
      intro p _
      simp only [Function.comp]
      have hcd : Mp.contains lt a p.1 = decide (p.1 ∈ List.map Prod.fst a) := by
        rw [Bool.eq_iff_iff, Mp.contains_iff hso]
        simp [Mp.keys]
      rw [hcd]
    set L := Mp.keys a ++ (Mp.keys b).filter (fun k => !(decide (k ∈ Mp.keys a))) with hL
    have hnd : L.Nodup := by
      refine List.Nodup.append hnda (hndb.filter _) ?_
      intro x hxa hxf
      have := (List.mem_filter.mp hxf).2
      simp at this
      exact this hxa
    have htf : L.toFinset = (Mp.keys a).toFinset ∪ (Mp.keys b).toFinset := by
      apply Finset.ext
      intro x
      simp only [hL, List.mem_toFinset, List.mem_append, List.mem_filter,
        Finset.mem_union, Bool.not_eq_true', decide_eq_false_iff_not]
      tauto
    have hlen : Mp.size (Mp.merge lt a b) = L.length := by
      unfold Mp.size Mp.merge
      rw [hsize, hL, List.length_append, hcount]
      have : (Mp.keys a).length = a.length := by
        unfold Mp.keys
        rw [List.length_map]
      rw [this]
    rw [hlen, ← htf, List.toFinset_card_of_nodup hnd]
  · intro k hca hcb
    exact Mp.merge_loop_lookup hso k b a hca

/-- Witness for C2 on concrete maps over Nat keys with the standard
comparator. -/
theorem c2_merge_spec_witness :
    (2 ∈ Mp.keys (Mp.merge (fun x y : Nat => decide (x < y))
        ([(1, 10), (2, 20)] : Mp Nat Nat) ([(2, 99), (3, 30)] : Mp Nat Nat))) ∧
    Mp.size (Mp.merge (fun x y : Nat => decide (x < y))
        ([(1, 10), (2, 20)] : Mp Nat Nat) ([(2, 99), (3, 30)] : Mp Nat Nat)) =
      ((Mp.keys ([(1, 10), (2, 20)] : Mp Nat Nat)).toFinset ∪
        (Mp.keys ([(2, 99), (3, 30)] : Mp Nat Nat)).toFinset).card ∧
    Mp.lookup (fun x y : Nat => decide (x < y))
        (Mp.merge (fun x y : Nat => decide (x < y))
          ([(1, 10), (2, 20)] : Mp Nat Nat) ([(2, 99), (3, 30)] : Mp Nat Nat)) 2 =
      Mp.lookup (fun x y : Nat => decide (x < y)) ([(1, 10), (2, 20)] : Mp Nat Nat) 2 := by
  have hso : Mp.StrictOrder (fun x y : Nat => decide (x < y)) := by
    refine ⟨?_, ?_, ?_⟩
    · intro x
      simp
    · intro x y z h1 h2
      simp at h1 h2 ⊢
      omega
    · intro x y h1 h2
      simp at h1 h2
      omega
  have h := c2_merge_spec (fun x y : Nat => decide (x < y))
    ([(1, 10), (2, 20)] : Mp Nat Nat) ([(2, 99), (3, 30)] : Mp Nat Nat)
    hso (by unfold Mp.WF; simp) (by unfold Mp.WF; simp)
  exact ⟨(h.1 2).mpr (Or.inl (by decide)), h.2.1, h.2.2 2 (by decide) (by decide)⟩

/-- Characters with equal code points are equal. -/
theorem charToNat_inj {a b : Char} (h : a.toNat = b.toNat) : a = b :=
  Char.eq_of_val_eq (UInt32.toNat.inj h)

/-- Str.isEmpty detects the empty character sequence. -/
theorem Str.isEmpty_iff {s : Str} : Str.isEmpty s = true ↔ s = [] := by
  unfold Str.isEmpty
  exact List.isEmpty_iff

/-- Unfolding of the lexicographic comparator on non-empty strings. -/
theorem strLtB_cons_iff (x y : Char) (xs ys : Str) :
    strLtB (x :: xs) (y :: ys) = true ↔
      (x.toNat < y.toNat ∨ (x = y ∧ strLtB xs ys = true)) := by
  rw [show strLtB (x :: xs) (y :: ys) =
      (if x.toNat < y.toNat then true
       else if y.toNat < x.toNat then false else strLtB xs ys) from rfl]
  by_cases h1 : x.toNat < y.toNat
  · rw [if_pos h1]
    simp [h1]
  · rw [if_neg h1]
    by_cases h2 : y.toNat < x.toNat
    · rw [if_pos h2]
      have hne : x ≠ y := by
        intro he
        rw [he] at h2
        omega
      simp [h1, hne]
    · rw [if_neg h2]
      have hxy : x = y := charToNat_inj (by omega)
      simp [h1, hxy]

/-- std::less on strings is irreflexive. -/
theorem strLtB_irrefl : ∀ s : Str, strLtB s s = false := by
  intro s
  induction s with
  | nil => rfl
  | cons x xs ih =>
    rw [Bool.eq_false_iff]
    intro h
    rcases (strLtB_cons_iff x x xs xs).mp h with h' | ⟨_, h'⟩
    · omega
    · rw [ih] at h'
      exact Bool.false_ne_true h'

/-- std::less on strings is transitive. -/
theorem strLtB_trans : ∀ a b c : Str, strLtB a b = true → strLtB b c = true →
    strLtB a c = true := by
  intro a
  induction a with
  | nil =>
    intro b c h1 h2
    cases b with
    | nil => exact absurd h1 (by simp [strLtB])
    | cons bh bt =>
      cases c with
      | nil => exact absurd h2 (by simp [strLtB])
      | cons ch ct => simp [strLtB]
  | cons ah as ih =>
    intro b c h1 h2
    cases b with
    | nil => exact absurd h1 (by simp [strLtB])
    | cons bh bt =>
      cases c with
      | nil => exact absurd h2 (by simp [strLtB])
      | cons ch ct =>
        rw [strLtB_cons_iff] at h1 h2 ⊢
        rcases h1 with hlt1 | ⟨he1, ht1⟩
        · rcases h2 with hlt2 | ⟨he2, ht2⟩
          · exact Or.inl (by omega)
          · exact Or.inl (by rw [← he2]; omega)
        · rcases h2 with hlt2 | ⟨he2, ht2⟩
          · exact Or.inl (by rw [he1]; omega)
          · exact Or.inr ⟨he1.trans he2, ih bt ct ht1 ht2⟩

/-- std::less on strings: mutual incomparability is equality. -/
theorem strLtB_antisym : ∀ a b : Str, strLtB a b = false → strLtB b a = false →
    a = b := by
  intro a
  induction a with
  | nil =>
    intro b h1 _
    cases b with
    | nil => rfl
    | cons bh bt => exact absurd h1 (by simp [strLtB])
  | cons ah as ih =>
    intro b h1 h2
    cases b with
    | nil => exact absurd h2 (by simp [strLtB])
    | cons bh bt =>
      have h1' : ¬(ah.toNat < bh.toNat ∨ (ah = bh ∧ strLtB as bt = true)) := by
        intro hh
        have hx := (strLtB_cons_iff ah bh as bt).mpr hh
        rw [h1] at hx
        exact Bool.false_ne_true hx
      have h2' : ¬(bh.toNat < ah.toNat ∨ (bh = ah ∧ strLtB bt as = true)) := by
        intro hh
        have hx := (strLtB_cons_iff bh ah bt as).mpr hh
        rw [h2] at hx
        exact Bool.false_ne_true hx
      push_neg at h1' h2'
      have he : ah = bh := charToNat_inj (by omega)
      have ht : as = bt :=
        ih bt (Bool.eq_false_iff.mpr (h1'.2 he)) (Bool.eq_false_iff.mpr (h2'.2 he.symm))
      rw [he, ht]

/-- std::less on strings satisfies the std::map comparator requirement. -/
theorem strLtB_StrictOrder : Mp.StrictOrder strLtB :=
  ⟨strLtB_irrefl, strLtB_trans, strLtB_antisym⟩

/-- Keys of a map with its head entry exposed. -/
theorem Mp.keys_cons {K V : Type} (q : K × V) (l : Mp K V) :
    Mp.keys (q :: l) = q.1 :: Mp.keys l := rfl

/-- The key written by operator[] is a key of the resulting map. -/
theorem Mp.mem_keys_setPair_self {K V : Type} (lt : K → K → Bool) (key : K) (value : V) :
    ∀ m : Mp K V, key ∈ Mp.keys (Mp.setPair lt key value m) := by
  intro m
  induction m with
  | nil => simp [Mp.setPair, Mp.keys]
  | cons p rest ih =>
    unfold Mp.setPair
    by_cases h1 : lt key p.1 = true
    · rw [if_pos h1, Mp.keys_cons, List.mem_cons]
      exact Or.inl rfl
    · by_cases h2 : lt p.1 key = true
      · rw [if_neg h1, if_pos h2, Mp.keys_cons, List.mem_cons]
        exact Or.inr ih
      · rw [if_neg h1, if_neg h2, Mp.keys_cons, List.mem_cons]
        exact Or.inl rfl

/-- operator[] never removes keys. -/
theorem Mp.mem_keys_setPair_mono {K V : Type} {lt : K → K → Bool}
    (hso : Mp.StrictOrder lt) (key : K) (value : V) (j : K) :
    ∀ m : Mp K V, j ∈ Mp.keys m → j ∈ Mp.keys (Mp.setPair lt key value m) := by
  intro m
  induction m with
  | nil => intro h; cases h
  | cons p rest ih =>
    intro hj
    rw [Mp.keys_cons, List.mem_cons] at hj
    unfold Mp.setPair
    by_cases h1 : lt key p.1 = true
    · rw [if_pos h1, Mp.keys_cons, List.mem_cons, Mp.keys_cons, List.mem_cons]
      rcases hj with he | hm
      · exact Or.inr (Or.inl he)
      · exact Or.inr (Or.inr hm)
    · by_cases h2 : lt p.1 key = true
      · rw [if_neg h1, if_pos h2, Mp.keys_cons, List.mem_cons]
        rcases hj with he | hm
        · exact Or.inl he
        · exact Or.inr (ih hm)
      · rw [if_neg h1, if_neg h2, Mp.keys_cons, List.mem_cons]
        have hpk : p.1 = key :=
          hso.2.2 p.1 key (Bool.eq_false_iff.mpr h2) (Bool.eq_false_iff.mpr h1)
        rcases hj with he | hm
        · exact Or.inl (he.trans hpk)
        · exact Or.inr hm

/-- operator[] writes the value that a lookup of the written key reads. -/
theorem Mp.lookup_setPair_self {K V : Type} {lt : K → K → Bool}
    (hso : Mp.StrictOrder lt) (key : K) (value : V) :
    ∀ m : Mp K V, Mp.lookup lt (Mp.setPair lt key value m) key = some value := by
  have hkk : Mp.keyEquiv lt key key = true := (Mp.keyEquiv_true_iff hso key key).mpr rfl
  intro m
  induction m with
  | nil =>
    unfold Mp.setPair Mp.lookup
    simp [List.find?_cons, hkk]
  | cons p rest ih =>
    unfold Mp.setPair
    by_cases h1 : lt key p.1 = true
    · rw [if_pos h1]
      unfold Mp.lookup
      rw [List.find?_cons_of_pos _ (by simp [hkk])]
      rfl
    · by_cases h2 : lt p.1 key = true
      · rw [if_neg h1, if_pos h2]
        have hkp : Mp.keyEquiv lt key p.1 = false := by
          rw [Bool.eq_false_iff]
          intro hky
          have := (Mp.keyEquiv_true_iff hso key p.1).mp hky
          rw [this, hso.1 p.1] at h2
          exact Bool.false_ne_true h2
        unfold Mp.lookup at ih ⊢
        rw [List.find?_cons_of_neg _ (by simp [hkp])]
        exact ih
      · rw [if_neg h1, if_neg h2]
        unfold Mp.lookup
        rw [List.find?_cons_of_pos _ (by simp [hkk])]
        rfl

/-- operator[] with a different key does not disturb a lookup. -/
theorem Mp.lookup_setPair_ne {K V : Type} {lt : K → K → Bool}
    (hso : Mp.StrictOrder lt) (key : K) (value : V) (k : K) (hne : key ≠ k) :
    ∀ m : Mp K V, Mp.lookup lt (Mp.setPair lt key value m) k = Mp.lookup lt m k := by
  have hk : Mp.keyEquiv lt k key = false := by
    rw [Bool.eq_false_iff]
    intro hky
    exact hne ((Mp.keyEquiv_true_iff hso k key).mp hky).symm
  intro m
  induction m with
  | nil =>
    unfold Mp.setPair Mp.lookup
    simp [List.find?_cons, hk]
  | cons p rest ih =>
    unfold Mp.setPair
    by_cases h1 : lt key p.1 = true
    · rw [if_pos h1]
      unfold Mp.lookup
      rw [List.find?_cons_of_neg _ (by simp [hk])]
    · by_cases h2 : lt p.1 key = true
      · rw [if_neg h1, if_pos h2]
        unfold Mp.lookup at ih ⊢
        by_cases hp : Mp.keyEquiv lt k p.1 = true
        · rw [List.find?_cons_of_pos _ (by simp [hp]), List.find?_cons_of_pos _ (by simp [hp])]
        · rw [List.find?_cons_of_neg _ (by simp [hp]), List.find?_cons_of_neg _ (by simp [hp])]
          exact ih
      · rw [if_neg h1, if_neg h2]
        have hpk : p.1 = key :=
          hso.2.2 p.1 key (Bool.eq_false_iff.mpr h2) (Bool.eq_false_iff.mpr h1)
        have hkp : Mp.keyEquiv lt k p.1 = false := by
          rw [hpk]
          exact hk
        unfold Mp.lookup
        rw [List.find?_cons_of_neg _ (by simp [hk]), List.find?_cons_of_neg _ (by simp [hkp])]

/-- The toMap loop body acts through the entry its segment contributes. -/
theorem Str.toMapStep_eq_segEntry (splitTok : Str) (acc : Mp Str Str) (pair : Str) :
    Str.toMapStep splitTok acc pair =
      (match Str.segEntry splitTok pair with
        | none => acc
        | some kv => Mp.setPair strLtB kv.1 kv.2 acc) := by
  unfold Str.toMapStep Str.segEntry
  by_cases h1 : Str.isEmpty splitTok
  · simp only [h1, if_true]
    by_cases h2 : Str.isEmpty (Str.trim pair) <;> simp [h2]
  · simp only [h1, Bool.false_eq_true, if_false]
    cases hf : Str.findSub splitTok pair with
    | some e => simp
    | none =>
      by_cases h2 : Str.isEmpty (Str.trim pair) <;> simp [h2]

/-- A segment contributes no entry exactly when the splitToken is empty or
absent and the segment trims to the empty string. -/
theorem Str.segEntry_none_iff (splitTok s : Str) :
    Str.segEntry splitTok s = none ↔
      ((splitTok = [] ∨ Str.findSub splitTok s = none) ∧ Str.trim s = []) := by
  unfold Str.segEntry
  by_cases h1 : Str.isEmpty splitTok
  · rw [if_pos h1]
    have h1' : splitTok = [] := Str.isEmpty_iff.mp h1
    by_cases h2 : Str.isEmpty (Str.trim s)
    · simp [h2, h1', Str.isEmpty_iff.mp h2, Str.isEmpty]
    · have h2' : ¬(Str.trim s = []) := fun he => h2 (Str.isEmpty_iff.mpr he)
      simp [h2, h2']
  · rw [if_neg h1]
    have h1' : ¬(splitTok = []) := fun he => h1 (Str.isEmpty_iff.mpr he)
    cases hf : Str.findSub splitTok s with
    | some e => simp [h1', hf]
    | none =>
      by_cases h2 : Str.isEmpty (Str.trim s)
      · simp [h2, Str.isEmpty_iff.mp h2, Str.isEmpty]
      · have h2' : ¬(Str.trim s = []) := fun he => h2 (Str.isEmpty_iff.mpr he)
        simp [h2, h2']

/-- A segment that contributes no entry leaves the accumulated map
unchanged. -/
theorem Str.toMapStep_no_entry (splitTok : Str) (acc : Mp Str Str) (s : Str)
    (h1 : splitTok = [] ∨ Str.findSub splitTok s = none) (h2 : Str.trim s = []) :
    Str.toMapStep splitTok acc s = acc := by
  rw [Str.toMapStep_eq_segEntry, (Str.segEntry_none_iff splitTok s).mpr ⟨h1, h2⟩]

/-- Keys already accumulated survive the rest of the toMap loop. -/
theorem Str.toMap_foldl_keys_mono (splitTok : Str) :
    ∀ (l : List Str) (acc : Mp Str Str) (k : Str),
      k ∈ Mp.keys acc → k ∈ Mp.keys (l.foldl (Str.toMapStep splitTok) acc) := by
  intro l
  induction l with
  | nil => intro acc k h; exact h
  | cons s0 rest ih =>
    intro acc k h
    simp only [List.foldl_cons]
    apply ih
    rw [Str.toMapStep_eq_segEntry]
    cases hse : Str.segEntry splitTok s0 with
    | none => exact h
    | some kv => exact Mp.mem_keys_setPair_mono strLtB_StrictOrder kv.1 kv.2 k acc h

/-- A processed segment whose entry has key k forces k into the final key
set. -/
theorem Str.toMap_foldl_key_present (splitTok k v : Str) :
    ∀ (l : List Str) (acc : Mp Str Str) (s : Str), s ∈ l →
      Str.segEntry splitTok s = some (k, v) →
      k ∈ Mp.keys (l.foldl (Str.toMapStep splitTok) acc) := by
  intro l
  induction l with
  | nil => intro acc s h _; cases h
  | cons s0 rest ih =>
    intro acc s hs hse
    simp only [List.foldl_cons]
    rcases List.mem_cons.mp hs with rfl | hmem
    · apply Str.toMap_foldl_keys_mono
      rw [Str.toMapStep_eq_segEntry, hse]
      exact Mp.mem_keys_setPair_self strLtB k v acc
    · exact ih _ s hmem hse

/-- If every entry written at key k carries value v and at least one such
write happens, the final lookup at k reads v. -/
theorem Str.toMap_foldl_lookup (splitTok k v : Str) :
    ∀ (l : List Str) (acc : Mp Str Str),
      (∀ s' ∈ l, ∀ k' v', Str.segEntry splitTok s' = some (k', v') → k' = k → v' = v) →
      (Mp.lookup strLtB acc k = some v ∨
        ∃ s' ∈ l, Str.segEntry splitTok s' = some (k, v)) →
      Mp.lookup strLtB (l.foldl (Str.toMapStep splitTok) acc) k = some v := by
  intro l
  induction l with
  | nil =>
    rintro acc _ (h | ⟨s', hs', _⟩)
    · exact h
    · cases hs'
  | cons s0 rest ih =>
    intro acc hcol hdis
    simp only [List.foldl_cons]
    apply ih _ (fun s' hs' => hcol s' (List.mem_cons_of_mem _ hs'))
    rw [Str.toMapStep_eq_segEntry]
    cases hse : Str.segEntry splitTok s0 with
    | none =>
      rcases hdis with h | ⟨s', hs', hseq⟩
      · exact Or.inl h
      · rcases List.mem_cons.mp hs' with rfl | hmem
        · rw [hse] at hseq
          cases hseq
        · exact Or.inr ⟨s', hmem, hseq⟩
    | some kv =>
      by_cases hk : kv.1 = k
      · have hv : kv.2 = v :=
          hcol s0 (List.mem_cons_self _ _) kv.1 kv.2 (by rw [hse]) hk
        left
        rw [← hk, ← hv]
        exact Mp.lookup_setPair_self strLtB_StrictOrder kv.1 kv.2 acc
      · rcases hdis with h | ⟨s', hs', hseq⟩
        · left
          rw [Mp.lookup_setPair_ne strLtB_StrictOrder kv.1 kv.2 k hk acc]
          exact h
        · rcases List.mem_cons.mp hs' with rfl | hmem
          · rw [hse] at hseq
            have hkv : kv = (k, v) := Option.some.inj hseq
            exact absurd (by rw [hkv]) hk
          · exact Or.inr ⟨s', hmem, hseq⟩

/-- Segments contributing no entry can be dropped from the toMap loop
without changing its result. -/
theorem Str.toMap_foldl_filter (splitTok : Str) :
    ∀ (l : List Str) (acc : Mp Str Str),
      l.foldl (Str.toMapStep splitTok) acc =
        (l.filter (fun seg => !((Str.segEntry splitTok seg).isNone))).foldl
          (Str.toMapStep splitTok) acc := by
  intro l
  induction l with
  | nil => intro acc; rfl
  | cons s0 rest ih =>
    intro acc
    rw [List.filter_cons]
    cases hse : Str.segEntry splitTok s0 with
    | none =>
      rw [if_neg (by simp [hse])]
      simp only [List.foldl_cons]
      rw [Str.toMapStep_eq_segEntry, hse]
      exact ih acc
    | some kv =>
      rw [if_pos (by simp [hse])]
      simp only [List.foldl_cons]
      exact ih _

/-- C6 counterexample: on the text " " with splitToken "=" and
separatorToken ";" the single produced segment is "" (after the split's
own trimming), the splitToken never occurs in it, yet toMap is the empty
map — the segment is dropped rather than becoming an entry. -/
theorem c6_counterexample :
    Str.splitByToken (str ";") true (str " ") = [str ""] ∧
    Str.findSub (str "=") (str "") = none ∧
    Str.toMap (str " ") (str "=") (str ";") = ([] : Mp Str Str) ∧
    Mp.lookup strLtB (Str.toMap (str " ") (str "=") (str ";")) (str "") = none :=
  ⟨rfl, rfl, rfl, rfl⟩

/-- C6 amended: for every text, non-empty separatorToken and non-empty
splitToken, each produced segment in which the splitToken never occurs and
whose trimmed form is non-empty always appears as a key of the toMap
result; and its value is the trimmed segment itself whenever every segment
producing that same key produces that same value (in particular whenever
no other segment collides on the key). Segments trimming to the empty
string are dropped, and a later colliding segment overwrites the value. -/
theorem c6_nosplit_segment_spec (text splitTok sepTok s : Str)
    (hsep : sepTok ≠ []) (hst : splitTok ≠ [])
    (hmem : s ∈ Str.splitByToken sepTok true text)
    (hno : Str.findSub splitTok s = none)
    (hne : Str.trim s ≠ []) :
    Str.trim s ∈ Mp.keys (Str.toMap text splitTok sepTok) ∧
    ((∀ s' ∈ Str.splitByToken sepTok true text, ∀ k v,
        Str.segEntry splitTok s' = some (k, v) → k = Str.trim s → v = Str.trim s) →
      Mp.lookup strLtB (Str.toMap text splitTok sepTok) (Str.trim s) =
        some (Str.trim s)) := by
  have hst' : ¬(Str.isEmpty splitTok = true) := fun hh => hst (Str.isEmpty_iff.mp hh)
  have hne' : ¬(Str.isEmpty (Str.trim s) = true) := fun hh => hne (Str.isEmpty_iff.mp hh)
  have hsep' : ¬(Str.isEmpty sepTok = true) := fun hh => hsep (Str.isEmpty_iff.mp hh)
  have hse : Str.segEntry splitTok s = some (Str.trim s, Str.trim s) := by
    unfold Str.segEntry
    rw [if_neg hst', hno]
    show (if Str.isEmpty (Str.trim s) = true then none
      else some (Str.trim s, Str.trim s)) = some (Str.trim s, Str.trim s)
    rw [if_neg hne']
  unfold Str.toMap
  rw [if_neg hsep']
  constructor
  · exact Str.toMap_foldl_key_present splitTok (Str.trim s) (Str.trim s)
      (Str.splitByToken sepTok true text) [] s hmem hse
  · intro hcol
    exact Str.toMap_foldl_lookup splitTok (Str.trim s) (Str.trim s)
      (Str.splitByToken sepTok true text) [] hcol (Or.inr ⟨s, hmem, hse⟩)

/-- Witness for the amended C6 on the text "a=1;b". -/
theorem c6_nosplit_segment_spec_witness :
    Str.trim (str "b") ∈ Mp.keys (Str.toMap (str "a=1;b") (str "=") (str ";")) ∧
    Mp.lookup strLtB (Str.toMap (str "a=1;b") (str "=") (str ";")) (Str.trim (str "b")) =
      some (Str.trim (str "b")) := by
  have h := c6_nosplit_segment_spec (str "a=1;b") (str "=") (str ";") (str "b")
    (by decide) (by decide) (by decide) (by decide) (by decide)
  refine ⟨h.1, h.2 ?_⟩
  intro s' hs' k v hseq hk
  have hsplit : Str.splitByToken (str ";") true (str "a=1;b") = [str "a=1", str "b"] := by
    decide
  rw [hsplit] at hs'
  rcases List.mem_cons.mp hs' with rfl | hs''
  · rw [show Str.segEntry (str "=") (str "a=1") = some (str "a", str "1") from rfl] at hseq
    injection hseq with hpair
    injection hpair with h1 h2
    rw [← h1] at hk
    exact absurd hk (by decide)
  · rcases List.mem_cons.mp hs'' with rfl | h0
    · rw [show Str.segEntry (str "=") (str "b") = some (str "b", str "b") from rfl] at hseq
      injection hseq with hpair
      injection hpair with h1 h2
      rw [← h2]
      decide
    · cases h0

/-- C10: a segment that is empty after trimming, when the splitToken is
empty or does not occur in it, contributes no map entry: the loop body
leaves the accumulator unchanged, the contributed entry is none exactly
under that condition, and for every text and non-empty separator the toMap
result equals the fold over only the contributing segments. -/
theorem c10_empty_segment_spec (splitTok : Str) (acc : Mp Str Str) (s text sepTok : Str) :
    ((splitTok = [] ∨ Str.findSub splitTok s = none) → Str.trim s = [] →
      Str.toMapStep splitTok acc s = acc) ∧
    (Str.segEntry splitTok s = none ↔
      ((splitTok = [] ∨ Str.findSub splitTok s = none) ∧ Str.trim s = [])) ∧
    (sepTok ≠ [] →
      Str.toMap text splitTok sepTok =
        ((Str.splitByToken sepTok true text).filter
          (fun seg => !((Str.segEntry splitTok seg).isNone))).foldl
          (Str.toMapStep splitTok) []) := by
  refine ⟨Str.toMapStep_no_entry splitTok acc s, Str.segEntry_none_iff splitTok s, ?_⟩
  intro hsep
  have hsep' : ¬(Str.isEmpty sepTok = true) := fun hh => hsep (Str.isEmpty_iff.mp hh)
  unfold Str.toMap
  rw [if_neg hsep']
  exact Str.toMap_foldl_filter splitTok (Str.splitByToken sepTok true text) []

/-- Witness for C10 on concrete segments and text. -/
theorem c10_empty_segment_spec_witness :
    Str.toMapStep (str "=") [] (str "") = [] ∧
    (Str.segEntry (str "=") (str "") = none ↔
      ((str "=" = [] ∨ Str.findSub (str "=") (str "") = none) ∧ Str.trim (str "") = [])) ∧
    Str.toMap (str "a=1; ;b") (str "=") (str ";") =
      ((Str.splitByToken (str ";") true (str "a=1; ;b")).filter
        (fun seg => !((Str.segEntry (str "=") seg).isNone))).foldl
        (Str.toMapStep (str "=")) [] := by
  have h := c10_empty_segment_spec (str "=") [] (str "") (str "a=1; ;b") (str ";")
  exact ⟨h.1 (Or.inr (by decide)) (by decide), h.2.1, h.2.2 (by decide)⟩

end CppEx
